import Mathlib

deriving instance DecidableEq for Except

/-!
Verification of the operators-rs core: the layout-normalization algorithm
(reform), the OpenCL position-encoding (rope) operator dispatch, and the
kernel cache.  Shallow embedding of the Rust sources.
-/

/-- Model of the external digit_layout crate's DigitLayout: a dtype tag with
a byte width.  Distinct codes keep distinct dtypes distinguishable even when
their byte widths agree. -/
structure DigitLayout where
  code : Nat
  nbytes : Nat
deriving DecidableEq

def F16 : DigitLayout := ⟨1, 2⟩

def F32 : DigitLayout := ⟨2, 4⟩

def F64 : DigitLayout := ⟨3, 8⟩

def U32 : DigitLayout := ⟨4, 4⟩

/-- Modelled from the spec: the common crate's Argument type (not under src/)
is "a concrete value or an unresolved symbolic placeholder". -/
inductive MaybeDyn (α : Type)
  | dyn
  | val (a : α)
deriving DecidableEq

/-- ErrorPosition of the common crate, abstracted to its optional message
(the file/line captured by locate_error! is dropped; every reform error
carries no message except the reduction error). -/
def ErrorPosition : Type := Option String

instance : DecidableEq ErrorPosition := by
  unfold ErrorPosition
  infer_instance

/-- Modelled from the spec: Argument::merge of a destination and a source
entry "unify destination and source declared lengths (mismatch fails)":
two distinct concrete values fail, otherwise the more concrete one wins. -/
def MaybeDyn.merge {α : Type} [DecidableEq α] :
    MaybeDyn α → MaybeDyn α → Except ErrorPosition (MaybeDyn α)
  | .val a, .val b => if a = b then .ok (.val a) else .error none
  | .val a, .dyn => .ok (.val a)
  | .dyn, b => .ok b

/-- Argument::get_static: the concrete value when there is one. -/
def MaybeDyn.getStatic {α : Type} : MaybeDyn α → Option α
  | .dyn => none
  | .val a => some a

/-- TensorLayout: dtype, shape and strides, with the invariant that the two
sequences have equal length (enforced by the real constructor). -/
structure TensorLayout where
  dt : DigitLayout
  shape : List (MaybeDyn Nat)
  strides : List (MaybeDyn Int)
  hlen : strides.length = shape.length

def TensorLayout.ndim (t : TensorLayout) : Nat := t.shape.length

/-- reform::Args, keeping only the two layouts (the device base pointers of
the Rust struct play no role in validation or planning). -/
structure ReformArgs where
  dst_layout : TensorLayout
  src_layout : TensorLayout

/-- reform Meta: the dtype derived by Args::meta. -/
structure ReformMeta where
  dt : DigitLayout
deriving DecidableEq

/-- Args::meta of src/operators/src/reform/args.rs: equal dtype, rank at
least 2, equal rank, and per-dimension mergeable declared lengths. -/
def ReformArgs.meta (args : ReformArgs) : Except ErrorPosition ReformMeta :=
  let dt := args.dst_layout.dt
  if args.src_layout.dt ≠ dt then .error none
  else if args.dst_layout.ndim < 2 ∨ args.src_layout.ndim ≠ args.dst_layout.ndim then .error none
  else if (List.zip args.dst_layout.shape args.src_layout.shape).all
      (fun p => (MaybeDyn.merge p.1 p.2).isOk) then .ok ⟨dt⟩
  else .error none

/-- One dimension of the normalization working set: length, destination
stride, source stride (struct Dim in Scheme::new). -/
structure Dim where
  len : Nat
  dst : Int
  src : Int
deriving DecidableEq

/-- The total order of Dim's Ord impl: dst descending, then src descending,
then len ascending. -/
def Dim.le (a b : Dim) : Prop :=
  b.dst < a.dst ∨ (a.dst = b.dst ∧ (b.src < a.src ∨ (a.src = b.src ∧ a.len ≤ b.len)))

instance : DecidableRel Dim.le := fun a b => by
  unfold Dim.le
  infer_instance

instance : IsTotal Dim Dim.le := ⟨fun a b => by
  unfold Dim.le
  omega⟩

instance : IsTrans Dim Dim.le := ⟨fun a b c hab hbc => by
  unfold Dim.le at hab hbc ⊢
  omega⟩

instance : IsAntisymm Dim Dim.le := ⟨fun a b hab hba => by
  obtain ⟨al, ad, as⟩ := a
  obtain ⟨bl, bd, bs⟩ := b
  simp only [Dim.le, Dim.mk.injEq] at hab hba ⊢
  omega⟩

/-- The per-dimension raw data Scheme::new reads at index i:
((dst shape entry, src shape entry), (dst stride, src stride)). -/
abbrev DimSpec : Type :=
  (MaybeDyn Nat × MaybeDyn Nat) × (MaybeDyn Int × MaybeDyn Int)

/-- The zipped per-dimension entries of the two layouts. -/
def dimSpecs (args : ReformArgs) : List DimSpec :=
  List.zip (List.zip args.dst_layout.shape args.src_layout.shape)
    (List.zip args.dst_layout.strides args.src_layout.strides)

/-- Statically resolving one dimension: merge the two declared lengths and
require the merged length and both strides to be concrete. -/
def specStatic (t : DimSpec) : Option Dim := do
  let d ← (MaybeDyn.merge t.1.1 t.1.2).toOption
  let len ← d.getStatic
  let dst ← t.2.1.getStatic
  let src ← t.2.2.getStatic
  some ⟨len, dst, src⟩

/-- The dimension-building loop of Scheme::new: resolve each dimension,
fail on a non-static entry, fail with the reduction error on a dimension of
length other than 1 whose destination stride is 0, and keep the dimensions
of length other than 1. -/
def buildDims : List DimSpec → Except ErrorPosition (List Dim)
  | [] => .ok []
  | t :: rest =>
    match specStatic t with
    | none => .error none
    | some d =>
      if d.len ≠ 1 ∧ d.dst = 0 then .error (some "Reducing is not allowed for reform.")
      else (buildDims rest).map (fun tail => if d.len ≠ 1 then d :: tail else tail)

/-- dims.sort_unstable() with Dim's Ord: the order is antisymmetric (ties in
all three keys force equal values), so the sorted result is the unique
sorted permutation and any sorting algorithm computes it. -/
def sortDims (dims : List Dim) : List Dim :=
  List.insertionSort Dim.le dims

/-- The trailing-run fold of Scheme::new, applied to the reversed dimension
list: while the last dimension's two strides both equal the running unit,
multiply the unit by its length and drop it. -/
def foldUnit : Int → List Dim → Int × List Dim
  | u, [] => (u, [])
  | u, d :: rest =>
    if d.dst = u ∧ d.src = u then foldUnit (u * (d.len : Int)) rest else (u, d :: rest)

/-- The adjacent-coalescing loop of Scheme::new: from innermost to
outermost, merge a pair whose inner stride times inner length equals the
outer stride for destination and source simultaneously; a merged-away slot
is overwritten with the inert sentinel of length 1 (filtered out at emit). -/
def coalesce : List Dim → List Dim
  | [] => []
  | [d] => [d]
  | f :: b0 :: rest =>
    match coalesce (b0 :: rest) with
    | [] => [f]
    | b :: rest2 =>
      if b.dst * (b.len : Int) = f.dst ∧ b.src * (b.len : Int) = f.src then
        ⟨b.len * f.len, b.dst, b.src⟩ :: ⟨1, 0, 0⟩ :: rest2
      else f :: b :: rest2

/-- The emitted plan: atomic unit in bytes plus the remaining dimensions
(the Rust code packs these into one Vec; unit(), shape(), dst_strides(),
src_strides() below are its accessors). -/
structure Scheme where
  unit : Int
  dims : List Dim
deriving DecidableEq

def Scheme.ndim (s : Scheme) : Nat := s.dims.length

def Scheme.shape (s : Scheme) : List Nat := s.dims.map Dim.len

def Scheme.dst_strides (s : Scheme) : List Int := s.dims.map Dim.dst

def Scheme.src_strides (s : Scheme) : List Int := s.dims.map Dim.src

/-- Scheme::new of src/operators/src/reform/args.rs: check equal dtype byte
width and equal rank, build the static dimensions dropping lengths of 1,
sort, fold the trailing contiguous run into the unit, coalesce adjacent
contiguous pairs, and emit the surviving dimensions. -/
def Scheme.new (args : ReformArgs) : Except ErrorPosition Scheme :=
  let unit := args.dst_layout.dt.nbytes
  if args.src_layout.dt.nbytes ≠ unit then .error none
  else if args.src_layout.ndim ≠ args.dst_layout.ndim then .error none
  else
    (buildDims (dimSpecs args)).map (fun dims0 =>
      let dims1 := sortDims dims0
      let p := foldUnit (unit : Int) dims1.reverse
      let dims2 := p.2.reverse
      let dims3 := coalesce dims2
      ⟨p.1, dims3.filter (fun d => d.len ≠ 1)⟩)

def mkShape (l : List Nat) : List (MaybeDyn Nat) := l.map MaybeDyn.val

def mkStrides (l : List Int) : List (MaybeDyn Int) := l.map MaybeDyn.val

/-- The concrete layouts of test_scheme: dtype F16 (2 bytes),
shape [4,3,2,1,2,3,4]. -/
def c1Args : ReformArgs :=
  { dst_layout :=
      ⟨F16, mkShape [4, 3, 2, 1, 2, 3, 4], mkStrides [288, 96, 48, 48, 24, 8, 2], rfl⟩
    src_layout :=
      ⟨F16, mkShape [4, 3, 2, 1, 2, 3, 4], mkStrides [576, 192, 96, 48, 8, 16, 2], rfl⟩ }

/-- C1: on the concrete input with dtype width 2 bytes, shape
[4,3,2,1,2,3,4], destination strides [288,96,48,48,24,8,2] and source
strides [576,192,96,48,8,16,2], Scheme construction succeeds and the plan
has 3 remaining dimensions, unit 8 bytes, shape [24,2,3], destination
strides [48,24,8] and source strides [96,8,16]. -/
theorem scheme_concrete_case :
    Scheme.new c1Args = .ok ⟨8, [⟨24, 48, 96⟩, ⟨2, 24, 8⟩, ⟨3, 8, 16⟩]⟩ ∧
    (Scheme.new c1Args).map Scheme.ndim = .ok 3 ∧
    (Scheme.new c1Args).map Scheme.unit = .ok 8 ∧
    (Scheme.new c1Args).map Scheme.shape = .ok [24, 2, 3] ∧
    (Scheme.new c1Args).map Scheme.dst_strides = .ok [48, 24, 8] ∧
    (Scheme.new c1Args).map Scheme.src_strides = .ok [96, 8, 16] := by
  decide

/-- A dimension the building loop accepts: statically resolvable, and when
its length is not 1 its destination stride is nonzero. -/
def specOk (t : DimSpec) : Prop :=
  match specStatic t with
  | none => False
  | some d => d.len = 1 ∨ d.dst ≠ 0

instance : DecidablePred specOk := fun t => by
  unfold specOk
  cases specStatic t <;> infer_instance

/-- A dimension triggering the reduction error: static, length not 1,
destination stride 0. -/
def specBad (t : DimSpec) : Prop :=
  match specStatic t with
  | none => False
  | some d => d.len ≠ 1 ∧ d.dst = 0

instance : DecidablePred specBad := fun t => by
  unfold specBad
  cases specStatic t <;> infer_instance

/-- The dimension the building loop keeps for a given entry: the resolved
dimension unless its length is 1. -/
def keepDim (t : DimSpec) : Option Dim :=
  (specStatic t).bind (fun d => if d.len = 1 then none else some d)

theorem buildDims_ok_of (l : List DimSpec) (h : ∀ t ∈ l, specOk t) :
    buildDims l = .ok (l.filterMap keepDim) := by
  induction l with
  | nil => rfl
  | cons t rest ih =>
    have ht := h t (List.mem_cons_self t rest)
    cases hs : specStatic t with
    | none => rw [specOk, hs] at ht; exact absurd ht id
    | some d =>
      rw [specOk, hs] at ht
      have hrest := ih (fun u hu => h u (List.mem_cons_of_mem t hu))
      simp only [buildDims, hs, hrest, List.filterMap_cons, keepDim, Option.bind_some]
      rw [if_neg (by tauto)]
      by_cases h1 : d.len = 1
      · simp [h1, Except.map]
      · simp [h1, Except.map]

theorem buildDims_ok_inv (l : List DimSpec) (ds : List Dim)
    (h : buildDims l = .ok ds) : ∀ t ∈ l, specOk t := by
  induction l generalizing ds with
  | nil => intro t ht; exact absurd ht (List.not_mem_nil t)
  | cons t rest ih =>
    intro u hu
    cases hs : specStatic t with
    | none => rw [buildDims, hs] at h; exact absurd h (by simp)
    | some d =>
      simp only [buildDims, hs] at h
      by_cases hld : d.len ≠ 1 ∧ d.dst = 0
      · rw [if_pos hld] at h; exact absurd h (by simp)
      · rw [if_neg hld] at h
        cases hr : buildDims rest with
        | error e => rw [hr] at h; exact absurd h (by simp [Except.map])
        | ok tail =>
          rcases List.mem_cons.mp hu with hut | hur
          · subst hut; rw [specOk, hs]; tauto
          · exact ih tail hr u hur

theorem buildDims_ok_iff (l : List DimSpec) (ds : List Dim) :
    buildDims l = .ok ds ↔ ((∀ t ∈ l, specOk t) ∧ ds = l.filterMap keepDim) := by
  constructor
  · intro h
    have hok := buildDims_ok_inv l ds h
    refine ⟨hok, ?_⟩
    have hof := buildDims_ok_of l hok
    rw [hof] at h
    exact (Except.ok.inj h).symm
  · rintro ⟨hok, rfl⟩
    exact buildDims_ok_of l hok

theorem buildDims_reduce_error (l : List DimSpec)
    (hstat : ∀ t ∈ l, (specStatic t).isSome)
    (hbad : ∃ t ∈ l, specBad t) :
    buildDims l = .error (some "Reducing is not allowed for reform.") := by
  induction l with
  | nil => obtain ⟨t, ht, -⟩ := hbad; exact absurd ht (List.not_mem_nil t)
  | cons t rest ih =>
    cases hs : specStatic t with
    | none =>
      have := hstat t (List.mem_cons_self t rest)
      rw [hs] at this
      exact absurd this (by simp)
    | some d =>
      by_cases hld : d.len ≠ 1 ∧ d.dst = 0
      · simp only [buildDims, hs]
        rw [if_pos hld]
      · have hrest : ∃ u ∈ rest, specBad u := by
          obtain ⟨u, hu, hbu⟩ := hbad
          rcases List.mem_cons.mp hu with hut | hur
          · subst hut; rw [specBad, hs] at hbu; exact absurd hbu hld
          · exact ⟨u, hur, hbu⟩
        have hre := ih (fun u hu => hstat u (List.mem_cons_of_mem t hu)) hrest
        simp only [buildDims, hs, hre]
        rw [if_neg hld]
        rfl

/-- Layouts containing a length-1 dimension whose destination stride is 0,
on which construction nevertheless succeeds. -/
def c2Args : ReformArgs :=
  { dst_layout := ⟨F16, mkShape [1, 2], mkStrides [0, 2], rfl⟩
    src_layout := ⟨F16, mkShape [1, 2], mkStrides [0, 2], rfl⟩ }

/-- C2 counterexample: an Args whose first dimension has length 1 and
destination stride exactly 0, yet validation and Scheme construction both
succeed and the dimension is silently dropped: the reduction check of the
code fires only for dimensions of length other than 1. -/
theorem scheme_len1_zero_stride_dropped :
    c2Args.dst_layout.shape[0]? = some (.val 1) ∧
    c2Args.dst_layout.strides[0]? = some (.val 0) ∧
    c2Args.meta = .ok ⟨F16⟩ ∧
    Scheme.new c2Args = .ok ⟨4, []⟩ := by
  decide

/-- C2 (amended): for every Args whose dimensions all resolve statically and
whose dtype widths and ranks agree, a dimension of length OTHER than 1 with
destination stride exactly 0 makes Scheme construction fail with the
reduction-not-allowed error; length-1 dimensions are silently dropped. -/
theorem scheme_reduction_error (args : ReformArgs)
    (hnb : args.src_layout.dt.nbytes = args.dst_layout.dt.nbytes)
    (hnd : args.src_layout.ndim = args.dst_layout.ndim)
    (hstat : ∀ t ∈ dimSpecs args, (specStatic t).isSome)
    (hbad : ∃ t ∈ dimSpecs args, specBad t) :
    Scheme.new args = .error (some "Reducing is not allowed for reform.") := by
  simp only [Scheme.new]
  rw [if_neg (by omega), if_neg (by omega),
    buildDims_reduce_error (dimSpecs args) hstat hbad]
  rfl

/-- Layouts with a length-2 dimension of destination stride 0 (a genuine
broadcast/reduction signal). -/
def c2BadArgs : ReformArgs :=
  { dst_layout := ⟨F16, mkShape [2, 2], mkStrides [0, 2], rfl⟩
    src_layout := ⟨F16, mkShape [2, 2], mkStrides [4, 2], rfl⟩ }

theorem scheme_reduction_error_witness :
    Scheme.new c2BadArgs = .error (some "Reducing is not allowed for reform.") :=
  scheme_reduction_error c2BadArgs rfl rfl (by decide) (by decide)


/-- Product of a list of lengths, as an integer. -/
def natProd (l : List Nat) : Int :=
  (l.map Int.ofNat).prod

/-- Product of the lengths of a dimension list. -/
def prodLen (ds : List Dim) : Int :=
  natProd (ds.map Dim.len)

theorem natProd_cons (n : Nat) (l : List Nat) :
    natProd (n :: l) = (n : Int) * natProd l := by
  simp [natProd]

theorem prodLen_cons (d : Dim) (ds : List Dim) :
    prodLen (d :: ds) = (d.len : Int) * prodLen ds := by
  simp [prodLen, natProd]

theorem prodLen_perm {ds1 ds2 : List Dim} (h : List.Perm ds1 ds2) :
    prodLen ds1 = prodLen ds2 := by
  unfold prodLen natProd
  rw [List.map_map, List.map_map]
  exact List.Perm.prod_eq (h.map (Int.ofNat ∘ Dim.len))

theorem prodLen_reverse (ds : List Dim) : prodLen ds.reverse = prodLen ds :=
  prodLen_perm ds.reverse_perm

theorem foldUnit_spec (ds : List Dim) (u : Int) :
    (foldUnit u ds).1 * prodLen (foldUnit u ds).2 = u * prodLen ds ∧
    (foldUnit u ds).2.length ≤ ds.length := by
  induction ds generalizing u with
  | nil => simp [foldUnit]
  | cons d rest ih =>
    by_cases hc : d.dst = u ∧ d.src = u
    · have hiu := ih (u * (d.len : Int))
      simp only [foldUnit, if_pos hc]
      refine ⟨?_, le_trans hiu.2 (Nat.le_succ _)⟩
      rw [hiu.1, prodLen_cons]
      ring
    · simp [foldUnit, if_neg hc]

theorem coalesce_prodLen (ds : List Dim) : prodLen (coalesce ds) = prodLen ds := by
  induction ds with
  | nil => rfl
  | cons f tail ih =>
    cases tail with
    | nil => rfl
    | cons b0 rest =>
      rw [coalesce]
      cases hc : coalesce (b0 :: rest) with
      | nil =>
        rw [hc] at ih
        dsimp only
        simp only [prodLen_cons] at ih ⊢
        linear_combination (f.len : Int) * ih
      | cons b rest2 =>
        rw [hc] at ih
        dsimp only
        by_cases hm : b.dst * (b.len : Int) = f.dst ∧ b.src * (b.len : Int) = f.src
        · rw [if_pos hm]
          simp only [prodLen_cons] at ih ⊢
          push_cast
          linear_combination (f.len : Int) * ih
        · rw [if_neg hm]
          simp only [prodLen_cons] at ih ⊢
          linear_combination (f.len : Int) * ih

theorem coalesce_length (ds : List Dim) : (coalesce ds).length = ds.length := by
  induction ds with
  | nil => rfl
  | cons f tail ih =>
    cases tail with
    | nil => rfl
    | cons b0 rest =>
      rw [coalesce]
      cases hc : coalesce (b0 :: rest) with
      | nil => rw [hc] at ih; simp at ih
      | cons b rest2 =>
        rw [hc] at ih
        dsimp only
        by_cases hm : b.dst * (b.len : Int) = f.dst ∧ b.src * (b.len : Int) = f.src
        · rw [if_pos hm]; simp_all
        · rw [if_neg hm]; simp_all

theorem prodLen_filter_len1 (ds : List Dim) :
    prodLen (ds.filter (fun d => d.len ≠ 1)) = prodLen ds := by
  induction ds with
  | nil => rfl
  | cons d rest ih =>
    by_cases h1 : d.len = 1
    · rw [List.filter_cons_of_neg (by simp [h1]), ih, prodLen_cons, h1]
      simp
    · rw [List.filter_cons_of_pos (by simp [h1]), prodLen_cons, ih, prodLen_cons]

/-- The merged declared length of one dimension, when static. -/
def mergedLen (t : DimSpec) : Option Nat :=
  ((MaybeDyn.merge t.1.1 t.1.2).toOption).bind MaybeDyn.getStatic

/-- The merged static lengths of all dimensions: the logical shape the two
layouts agree on (the total element count is its product). -/
def mergedLens : List DimSpec → Option (List Nat)
  | [] => some []
  | t :: rest => do
    let a ← mergedLen t
    let r ← mergedLens rest
    some (a :: r)

theorem mergedLen_of_specStatic (t : DimSpec) (d : Dim)
    (h : specStatic t = some d) : mergedLen t = some d.len := by
  simp only [specStatic, Option.bind_eq_bind, Option.bind_eq_some, Option.some.injEq] at h
  obtain ⟨m, hm, len, hlen, dst, hdst, src, hsrc, hd⟩ := h
  rw [mergedLen, hm, Option.some_bind, hlen, ← hd]

theorem mergedLens_length (l : List DimSpec) (lens : List Nat)
    (h : mergedLens l = some lens) : lens.length = l.length := by
  induction l generalizing lens with
  | nil => simp only [mergedLens, Option.some.injEq] at h; simp [← h]
  | cons t rest ih =>
    simp only [mergedLens, Option.bind_eq_bind, Option.bind_eq_some] at h
    obtain ⟨a, -, r, hr, hl⟩ := h
    simp only [Option.some.injEq] at hl
    simp [← hl, ih r hr]

theorem filterMap_keepDim_stats (l : List DimSpec) (lens : List Nat)
    (hml : mergedLens l = some lens)
    (hok : ∀ t ∈ l, specOk t) :
    prodLen (l.filterMap keepDim) = natProd lens ∧
    (l.filterMap keepDim).length = lens.length - lens.count 1 := by
  induction l generalizing lens with
  | nil =>
    simp only [mergedLens, Option.some.injEq] at hml
    simp [← hml, prodLen, natProd]
  | cons t rest ih =>
    simp only [mergedLens, Option.bind_eq_bind, Option.bind_eq_some] at hml
    obtain ⟨a, ha, r, hr, hl⟩ := hml
    simp only [Option.some.injEq] at hl
    subst hl
    have hto := hok t (List.mem_cons_self t rest)
    cases hs : specStatic t with
    | none => rw [specOk, hs] at hto; exact absurd hto id
    | some d =>
      have hda : d.len = a := by
        have hml2 := mergedLen_of_specStatic t d hs
        rw [ha] at hml2
        exact (Option.some.inj hml2).symm
      have hrest := ih r hr (fun u hu => hok u (List.mem_cons_of_mem t hu))
      have hcle := r.count_le_length 1
      by_cases h1 : d.len = 1
      · have hk : keepDim t = none := by simp [keepDim, hs, h1]
        rw [List.filterMap_cons_none hk]
        obtain rfl : a = 1 := by omega
        refine ⟨by rw [hrest.1, natProd_cons]; simp, ?_⟩
        have hcc : List.count 1 (1 :: r) = List.count 1 r + 1 := by simp
        rw [hcc, hrest.2, List.length_cons]
        omega
      · have hk : keepDim t = some d := by simp [keepDim, hs, h1]
        rw [List.filterMap_cons_some hk]
        refine ⟨by rw [prodLen_cons, hrest.1, natProd_cons, hda], ?_⟩
        have hne : (1 : Nat) ≠ a := by omega
        have hcc : List.count 1 (a :: r) = List.count 1 r := by
          simp [List.count_cons, hne, hne.symm]
        rw [List.length_cons, hcc, hrest.2, List.length_cons]
        omega

theorem dimSpecs_length (args : ReformArgs)
    (hnd : args.src_layout.ndim = args.dst_layout.ndim) :
    (dimSpecs args).length = args.dst_layout.ndim := by
  unfold dimSpecs TensorLayout.ndim at *
  simp only [List.length_zip, args.dst_layout.hlen, args.src_layout.hlen, hnd]
  omega

theorem natProd_shape (s : Scheme) : natProd s.shape = prodLen s.dims := rfl

theorem natProd_map_len (ds : List Dim) : natProd (ds.map Dim.len) = prodLen ds := rfl

/-- C3: for every same-shape (destination, source) stride pair with rank at
least 2 on which Scheme construction succeeds, the plan's dimension count
is at most the original rank minus the number of length-1 dimensions, and
the unit in bytes times the product of the remaining shape equals the total
element count times the dtype size in bytes. -/
theorem scheme_unit_product (args : ReformArgs) (s : Scheme) (lens : List Nat)
    (hrank : 2 ≤ args.dst_layout.ndim)
    (hok : Scheme.new args = .ok s)
    (hlens : mergedLens (dimSpecs args) = some lens) :
    s.ndim ≤ args.dst_layout.ndim - lens.count 1 ∧
    s.unit * natProd s.shape = natProd lens * (args.dst_layout.dt.nbytes : Int) := by
  simp only [Scheme.new] at hok
  by_cases h1 : args.src_layout.dt.nbytes ≠ args.dst_layout.dt.nbytes
  · rw [if_pos h1] at hok; exact absurd hok (by simp)
  rw [if_neg h1] at hok
  by_cases h2 : args.src_layout.ndim ≠ args.dst_layout.ndim
  · rw [if_pos h2] at hok; exact absurd hok (by simp)
  rw [if_neg h2] at hok
  push_neg at h2
  cases hb : buildDims (dimSpecs args) with
  | error e => rw [hb] at hok; exact absurd hok (by simp [Except.map])
  | ok dims0 =>
    rw [hb] at hok
    simp only [Except.map, Except.ok.injEq] at hok
    subst hok
    have hiff := (buildDims_ok_iff (dimSpecs args) dims0).mp hb
    have hstats := filterMap_keepDim_stats (dimSpecs args) lens hlens hiff.1
    rw [← hiff.2] at hstats
    have hll : lens.length = args.dst_layout.ndim := by
      rw [mergedLens_length (dimSpecs args) lens hlens, dimSpecs_length args h2]
    have hsp : List.Perm (sortDims dims0) dims0 := List.perm_insertionSort _ _
    have hps : prodLen (sortDims dims0) = prodLen dims0 := prodLen_perm hsp
    have hls : (sortDims dims0).length = dims0.length := hsp.length_eq
    set u0 : Int := ((args.dst_layout.dt.nbytes : Nat) : Int) with hu0
    set q := foldUnit u0 (sortDims dims0).reverse with hqdef
    have hfs := foldUnit_spec (sortDims dims0).reverse u0
    set dims4 := (coalesce q.2.reverse).filter (fun d => d.len ≠ 1) with hd4
    constructor
    · have hfl : dims4.length ≤ (coalesce q.2.reverse).length := by
        rw [hd4]; exact List.length_filter_le _ _
      have hcl : (coalesce q.2.reverse).length = q.2.reverse.length := coalesce_length _
      have hq2 : q.2.reverse.length ≤ (sortDims dims0).length := by
        rw [List.length_reverse]
        exact le_trans hfs.2 (le_of_eq (List.length_reverse _))
      simp only [Scheme.ndim]
      omega
    · simp only [Scheme.unit, Scheme.shape]
      rw [natProd_map_len, hd4, prodLen_filter_len1, coalesce_prodLen, prodLen_reverse,
        hfs.1, prodLen_reverse, hps, hstats.1]
      ring

theorem scheme_unit_product_witness :
    Scheme.ndim ⟨8, [⟨24, 48, 96⟩, ⟨2, 24, 8⟩, ⟨3, 8, 16⟩]⟩ ≤
      c1Args.dst_layout.ndim - List.count 1 [4, 3, 2, 1, 2, 3, 4] ∧
    Scheme.unit ⟨8, [⟨24, 48, 96⟩, ⟨2, 24, 8⟩, ⟨3, 8, 16⟩]⟩ *
        natProd (Scheme.shape ⟨8, [⟨24, 48, 96⟩, ⟨2, 24, 8⟩, ⟨3, 8, 16⟩]⟩) =
      natProd [4, 3, 2, 1, 2, 3, 4] * (c1Args.dst_layout.dt.nbytes : Int) :=
  scheme_unit_product c1Args ⟨8, [⟨24, 48, 96⟩, ⟨2, 24, 8⟩, ⟨3, 8, 16⟩]⟩
    [4, 3, 2, 1, 2, 3, 4] (by decide) (by decide) (by decide)

theorem sortDims_eq_of_perm (l1 l2 : List Dim) (h : List.Perm l1 l2) :
    sortDims l1 = sortDims l2 :=
  List.eq_of_perm_of_sorted
    ((List.perm_insertionSort _ l1).trans (h.trans (List.perm_insertionSort _ l2).symm))
    (List.sorted_insertionSort _ l1) (List.sorted_insertionSort _ l2)

/-- C6: the normalization result is invariant under permutation of the
input dimension order: a second Args whose per-dimension entries (shape and
both strides, zipped) are a permutation of the first and whose dtypes and
ranks agree produces the identical plan whenever the first succeeds. -/
theorem scheme_perm_invariant (args args2 : ReformArgs) (s : Scheme)
    (hdt : args2.dst_layout.dt = args.dst_layout.dt)
    (hst : args2.src_layout.dt = args.src_layout.dt)
    (hnd : args2.dst_layout.ndim = args.dst_layout.ndim)
    (hns : args2.src_layout.ndim = args.src_layout.ndim)
    (hperm : List.Perm (dimSpecs args2) (dimSpecs args))
    (hok : Scheme.new args = .ok s) :
    Scheme.new args2 = .ok s := by
  simp only [Scheme.new] at hok ⊢
  by_cases h1 : args.src_layout.dt.nbytes ≠ args.dst_layout.dt.nbytes
  · rw [if_pos h1] at hok; exact absurd hok (by simp)
  rw [if_neg h1] at hok
  by_cases h2 : args.src_layout.ndim ≠ args.dst_layout.ndim
  · rw [if_pos h2] at hok; exact absurd hok (by simp)
  rw [if_neg h2] at hok
  rw [if_neg (by rw [hst, hdt]; exact h1), if_neg (by rw [hns, hnd]; exact h2)]
  cases hb : buildDims (dimSpecs args) with
  | error e => rw [hb] at hok; exact absurd hok (by simp [Except.map])
  | ok dims0 =>
    rw [hb] at hok
    have hiff := (buildDims_ok_iff (dimSpecs args) dims0).mp hb
    have hok2 : ∀ t ∈ dimSpecs args2, specOk t := fun t ht =>
      hiff.1 t (hperm.mem_iff.mp ht)
    have hb2 := buildDims_ok_of (dimSpecs args2) hok2
    rw [hb2]
    have hpf : List.Perm ((dimSpecs args2).filterMap keepDim) dims0 := by
      rw [hiff.2]
      exact hperm.filterMap keepDim
    have hsort : sortDims ((dimSpecs args2).filterMap keepDim) = sortDims dims0 :=
      sortDims_eq_of_perm _ _ hpf
    simp only [Except.map] at hok ⊢
    rw [hsort, hdt]
    exact hok

/-- The c1Args input with the first two dimensions of both layouts swapped. -/
def c6Args : ReformArgs :=
  { dst_layout :=
      ⟨F16, mkShape [3, 4, 2, 1, 2, 3, 4], mkStrides [96, 288, 48, 48, 24, 8, 2], rfl⟩
    src_layout :=
      ⟨F16, mkShape [3, 4, 2, 1, 2, 3, 4], mkStrides [192, 576, 96, 48, 8, 16, 2], rfl⟩ }

theorem scheme_perm_invariant_witness :
    Scheme.new c6Args = .ok ⟨8, [⟨24, 48, 96⟩, ⟨2, 24, 8⟩, ⟨3, 8, 16⟩]⟩ :=
  scheme_perm_invariant c1Args c6Args ⟨8, [⟨24, 48, 96⟩, ⟨2, 24, 8⟩, ⟨3, 8, 16⟩]⟩
    rfl rfl rfl rfl (by decide) (by decide)

/-- C7: the layout-normalization path validates equal dtype and rank at
least 2: an Args whose destination and source dtypes differ, or whose rank
is below 2 (rank 1 included), or whose ranks differ, fails validation. -/
theorem meta_validates (args : ReformArgs)
    (h : args.dst_layout.dt ≠ args.src_layout.dt ∨ args.dst_layout.ndim < 2 ∨
      args.src_layout.ndim ≠ args.dst_layout.ndim) :
    args.meta = .error none := by
  simp only [ReformArgs.meta]
  by_cases h1 : args.src_layout.dt ≠ args.dst_layout.dt
  · rw [if_pos h1]
  · rw [if_neg h1]
    have h2 : args.dst_layout.ndim < 2 ∨ args.src_layout.ndim ≠ args.dst_layout.ndim := by
      push_neg at h1
      rcases h with hd | hrest
      · exact absurd h1.symm hd
      · exact hrest
    rw [if_pos h2]

/-- A rank-1 pair of layouts: a trivial flat copy, rejected by meta. -/
def c7Args : ReformArgs :=
  { dst_layout := ⟨F16, mkShape [4], mkStrides [2], rfl⟩
    src_layout := ⟨F16, mkShape [4], mkStrides [2], rfl⟩ }

theorem meta_validates_witness : c7Args.meta = .error none :=
  meta_validates c7Args (Or.inr (Or.inl (by decide)))

/-- Launch/scheme error taxonomy of the operator lifecycle. -/
inductive LaunchErr
  | typeNS
  | shapeNS
  | stridesNS
deriving DecidableEq

/-- Dispatch parameters the OpenCL rope launch enqueues: global and local
worksizes (both two-dimensional) plus the two stride kernel arguments. -/
structure Dispatch where
  globalWorksize : Nat × Nat
  localWorksize : Nat × Nat
  stArg : Int
  shArg : Int
deriving DecidableEq

/-- Outcome of launch: an enqueued dispatch, a typed error, or a Rust
process abort (remainder by zero, or unwrap of a missing value). -/
inductive RopeResult
  | ok (d : Dispatch)
  | err (e : LaunchErr)
  | abort
deriving DecidableEq

def MAX_THREADS_PER_BLOCK : Nat := 512

/-- Rust `as i32`: wrap to 32 bits, two's complement. -/
def toI32 (x : Int) : Int := (x + 2 ^ 31) % 2 ^ 32 - 2 ^ 31

/-- The search `(1..=m).rev().find(|nhl| nh % nhl == 0)`. -/
def findTopDivisor (nh : Nat) : Nat → Option Nat
  | 0 => none
  | m + 1 => if nh % (m + 1) = 0 then some (m + 1) else findTopDivisor nh m

/-- Operator::launch of src/operators/src/rope/opencl/mod.rs, from the
point where Meta and the static shape/stride values are in hand (the Meta
derivation lives in rope/args.rs, outside src/): the dtype gate (tensor
F32, positions U32), the stride gate (innermost tensor stride equal to the
dtype width, position stride equal to the u32 size), then workgroup
selection on the halved head dim dh / 2.  When dh / 2 is 0 the Rust
remainder by zero aborts; when the divisor search range is empty the
unwrap aborts. -/
def ropeLaunch (dt_t dt_p : DigitLayout) (nt nh dh : Nat)
    (st sh sd sp : Int) : RopeResult :=
  if ¬(dt_t = F32 ∧ dt_p = U32) then .err .typeNS
  else
    let unit : Int := dt_t.nbytes
    if ¬(sd = unit ∧ sp = 4) then .err .stridesNS
    else
      let dh2 := dh / 2
      let stArg := toI32 ((st.tdiv unit).tdiv 2)
      let shArg := toI32 ((sh.tdiv unit).tdiv 2)
      if dh2 = 0 then .abort
      else if ¬(MAX_THREADS_PER_BLOCK % dh2 = 0) then .err .shapeNS
      else
        match findTopDivisor nh (Nat.min (MAX_THREADS_PER_BLOCK / dh2) nh) with
        | none => .abort
        | some nhL => .ok ⟨(nt * nhL, nh / nhL * dh2), (nhL, dh2), stArg, shArg⟩

/-- Operator::scheme of src/operators/src/rope/opencl/mod.rs, after Meta
derivation: the dtype validation exactly as written in the source,
`dt_t == F32 || dt_p == U32`, reporting zero workspace on success. -/
def ropeScheme (dt_t dt_p : DigitLayout) : Except LaunchErr Nat :=
  if dt_t = F32 ∨ dt_p = U32 then .ok 0 else .error .typeNS

theorem findTopDivisor_spec (nh m g : Nat)
    (h : findTopDivisor nh m = some g) : g ∣ nh ∧ 1 ≤ g ∧ g ≤ m := by
  induction m with
  | zero => exact absurd h (by simp [findTopDivisor])
  | succ m ih =>
    rw [findTopDivisor] at h
    by_cases hd : nh % (m + 1) = 0
    · rw [if_pos hd] at h
      obtain rfl : m + 1 = g := Option.some.inj h
      exact ⟨Nat.dvd_of_mod_eq_zero hd, by omega, le_refl _⟩
    · rw [if_neg hd] at h
      obtain ⟨h1, h2, h3⟩ := ih h
      exact ⟨h1, h2, by omega⟩

theorem findTopDivisor_max (nh m k g : Nat)
    (h : findTopDivisor nh m = some g) (hk : k ∣ nh) (hk1 : 1 ≤ k)
    (hkm : k ≤ m) : k ≤ g := by
  induction m with
  | zero => omega
  | succ m ih =>
    rw [findTopDivisor] at h
    by_cases hd : nh % (m + 1) = 0
    · rw [if_pos hd] at h
      obtain rfl : m + 1 = g := Option.some.inj h
      exact hkm
    · rw [if_neg hd] at h
      by_cases hkm2 : k ≤ m
      · exact ih h hkm2
      · obtain rfl : k = m + 1 := by omega
        obtain ⟨c, rfl⟩ := hk
        exact absurd (Nat.mul_mod_right (m + 1) c) hd

/-- C4 counterexample: with head dim 1 the halved per-unit size is 0, which
does not divide the 512-thread limit, yet launch does not fail with
shape-not-supported: the Rust remainder by zero aborts the process
instead of returning a typed error. -/
theorem rope_dh1_aborts :
    ropeLaunch F32 U32 1 1 1 4 4 4 4 = .abort ∧
    ropeLaunch F32 U32 1 1 1 4 4 4 4 ≠ .err .shapeNS ∧
    ¬((1 / 2 : Nat) ∣ MAX_THREADS_PER_BLOCK) := by
  decide

/-- C4 (amended): for Args reaching dispatch selection (implemented dtypes,
supported strides) with dh at least 2, launch fails with
shape-not-supported exactly when the per-unit dimension size dh / 2 does
not divide the 512-thread workgroup limit; every accepted dispatch runs
dh / 2 threads per head and handles g whole heads per workgroup, where g
is the largest divisor of the head count nh with dh / 2 times g within the
limit.  (With dh below 2 the code aborts instead of erroring.) -/
theorem rope_workgroup_selection (nt nh dh : Nat) (st sh sd sp : Int)
    (hsd : sd = 4) (hsp : sp = 4) (hdh : 2 ≤ dh) :
    (ropeLaunch F32 U32 nt nh dh st sh sd sp = .err .shapeNS ↔
      ¬(dh / 2 ∣ MAX_THREADS_PER_BLOCK)) ∧
    (∀ d, ropeLaunch F32 U32 nt nh dh st sh sd sp = .ok d →
      d.localWorksize.2 = dh / 2 ∧
      d.localWorksize.1 ∣ nh ∧
      dh / 2 * d.localWorksize.1 ≤ MAX_THREADS_PER_BLOCK ∧
      (∀ k, k ∣ nh → dh / 2 * k ≤ MAX_THREADS_PER_BLOCK →
        k ≤ d.localWorksize.1)) := by
  have hdh2 : 1 ≤ dh / 2 := by omega
  simp only [ropeLaunch]
  rw [if_neg (by simp), if_neg (by simp [hsd, hsp, F32]), if_neg (by omega)]
  by_cases hdvd : MAX_THREADS_PER_BLOCK % (dh / 2) = 0
  · rw [if_neg (by simpa using hdvd)]
    have hdvd2 : dh / 2 ∣ MAX_THREADS_PER_BLOCK := Nat.dvd_of_mod_eq_zero hdvd
    cases hf : findTopDivisor nh (Nat.min (MAX_THREADS_PER_BLOCK / (dh / 2)) nh) with
    | none => simp [hdvd2]
    | some g =>
      obtain ⟨hg1, hg2, hg3⟩ := findTopDivisor_spec _ _ _ hf
      have hnh : 1 ≤ nh :=
        le_trans hg2 (le_trans hg3 (Nat.min_le_right _ _))
      refine ⟨by simp [hdvd2], fun d hd => ?_⟩
      obtain rfl : Dispatch.mk (nt * g, nh / g * (dh / 2)) (g, dh / 2)
          (toI32 ((st.tdiv ↑F32.nbytes).tdiv 2)) (toI32 ((sh.tdiv ↑F32.nbytes).tdiv 2)) = d :=
        RopeResult.ok.inj hd
      refine ⟨rfl, hg1, ?_, ?_⟩
      · have hgle : g ≤ MAX_THREADS_PER_BLOCK / (dh / 2) :=
          le_trans hg3 (Nat.min_le_left _ _)
        have := (Nat.le_div_iff_mul_le hdh2).mp hgle
        simpa [Nat.mul_comm] using this
      · intro k hk hkle
        have hk1 : 1 ≤ k := by
          rcases Nat.eq_zero_or_pos k with rfl | hpos
          · obtain rfl : nh = 0 := Nat.eq_zero_of_zero_dvd hk
            omega
          · omega
        have hkdiv : k ≤ MAX_THREADS_PER_BLOCK / (dh / 2) :=
          (Nat.le_div_iff_mul_le hdh2).mpr (by rw [Nat.mul_comm]; exact hkle)
        have hknh : k ≤ nh := Nat.le_of_dvd (by omega) hk
        exact findTopDivisor_max nh _ k g hf hk hk1 (Nat.le_min.mpr ⟨hkdiv, hknh⟩)
  · rw [if_pos (by simpa using hdvd)]
    constructor
    · simp only [true_iff]
      intro hc
      exact hdvd (Nat.mod_eq_zero_of_dvd hc)
    · intro d hd
      exact absurd hd (by simp)

theorem rope_workgroup_selection_witness :
    ropeLaunch F32 U32 7 32 64 256 8 4 4 ≠ .err .shapeNS := by
  have h := rope_workgroup_selection 7 32 64 256 8 4 4 rfl rfl (by omega)
  intro hc
  exact (h.1.mp hc) (by decide)

/-- C10: with the implemented dtypes, launch fails with
strides-not-supported exactly when the innermost tensor stride differs
from the dtype byte width (4 for F32) or the position stride differs from
4 (the u32 size); every accepted launch has both strides as required. -/
theorem rope_stride_validation (nt nh dh : Nat) (st sh sd sp : Int) :
    (ropeLaunch F32 U32 nt nh dh st sh sd sp = .err .stridesNS ↔
      ¬(sd = (F32.nbytes : Int) ∧ sp = 4)) ∧
    (∀ d, ropeLaunch F32 U32 nt nh dh st sh sd sp = .ok d →
      sd = (F32.nbytes : Int) ∧ sp = 4) := by
  simp only [ropeLaunch]
  rw [if_neg (by simp)]
  by_cases hsz : sd = ((F32.nbytes : Nat) : Int) ∧ sp = 4
  · rw [if_neg (not_not_intro hsz)]
    by_cases h0 : dh / 2 = 0
    · rw [if_pos h0]
      exact ⟨by simp [hsz], fun d hd => absurd hd (by simp)⟩
    · rw [if_neg h0]
      by_cases hsh : ¬(MAX_THREADS_PER_BLOCK % (dh / 2) = 0)
      · rw [if_pos hsh]
        exact ⟨by simp [hsz], fun d hd => absurd hd (by simp)⟩
      · rw [if_neg hsh]
        cases hf : findTopDivisor nh (Nat.min (MAX_THREADS_PER_BLOCK / (dh / 2)) nh) with
        | none => exact ⟨by simp [hsz], fun d hd => absurd hd (by simp)⟩
        | some g => exact ⟨by simp [hsz], fun d hd => hsz⟩
  · rw [if_pos hsz]
    exact ⟨by simp [hsz], fun d hd => absurd hd (by simp)⟩

theorem rope_stride_validation_witness :
    ropeLaunch F32 U32 7 32 64 256 8 5 4 = .err .stridesNS :=
  (rope_stride_validation 7 32 64 256 8 5 4).1.mpr (by decide)

/-- C5: the planning step does not validate the dtype combination the way
launch does: scheme accepts any Args whose position dtype is U32 (its
check is the disjunction written in the source), so the unimplemented
combination (F64, U32) passes planning and then fails launch's dtype
re-validation with type-not-supported. -/
theorem rope_scheme_launch_dtype_mismatch :
    ropeScheme F64 U32 = .ok 0 ∧
    ropeLaunch F64 U32 7 32 64 256 8 4 4 = .err .typeNS := by
  decide

/-- KernelCache of src/operators/src/handle/opencl/mod.rs: the compiled
program (get_kernel on it specializes a fresh kernel for a name, when the
program has that entry point) and the name-to-pool map guarded by the
reader-writer lock.  Modelled from the spec where the Pool type is
concerned: Pool is the concurrency-safe free list of the common crate (not
under src/), push/pop, pop on empty returns nothing; a free list returns
the most recently pushed element first, so a pool is a list with push as
cons and pop as head. -/
structure KernelCache (K : Type) where
  program : String → Option K
  pools : String → Option (List K)

/-- Overwrite one pool in the map. -/
def KernelCache.setPool {K : Type} (c : KernelCache K) (name : String)
    (p : List K) : KernelCache K :=
  ⟨c.program, fun n => if n = name then some p else c.pools n⟩

/-- KernelCache::get_kernel: under the read lock, if the pool exists, pop
from it, falling back to a fresh specialization; if the name is unknown,
specialize (returning nothing when the program lacks the entry point, with
no pool registered), then register an empty pool under the write lock. -/
def KernelCache.get_kernel {K : Type} (c : KernelCache K) (name : String) :
    Option K × KernelCache K :=
  match c.pools name with
  | some pool =>
    match pool with
    | k :: rest => (some k, c.setPool name rest)
    | [] => (c.program name, c)
  | none =>
    match c.program name with
    | none => (none, c)
    | some k => (some k, c.setPool name [])

/-- KernelCache::set_kernel: look the pool up and unwrap — a missing pool
is a process abort (modelled as none), not a typed error — then push the
kernel back. -/
def KernelCache.set_kernel {K : Type} (c : KernelCache K) (name : String)
    (k : K) : Option (KernelCache K) :=
  match c.pools name with
  | none => none
  | some pool => some (c.setPool name (k :: pool))

/-- C8: set_kernel aborts (no typed, recoverable error exists in its
signature) exactly when the pool for the name was never created; when the
pool exists the kernel is pushed onto that pool. -/
theorem set_kernel_pool_invariant {K : Type} (c : KernelCache K)
    (name : String) (k : K) :
    (c.set_kernel name k = none ↔ c.pools name = none) ∧
    (∀ pool, c.pools name = some pool →
      c.set_kernel name k = some (c.setPool name (k :: pool)) ∧
      (c.setPool name (k :: pool)).pools name = some (k :: pool)) := by
  constructor
  · cases hp : c.pools name with
    | none => simp [KernelCache.set_kernel, hp]
    | some pool => simp [KernelCache.set_kernel, hp]
  · intro pool hp
    refine ⟨by simp [KernelCache.set_kernel, hp], ?_⟩
    simp [KernelCache.setPool]

/-- A cache with no pools registered at all. -/
def cacheNoPool : KernelCache Nat := ⟨fun _ => none, fun _ => none⟩

theorem set_kernel_pool_invariant_witness :
    cacheNoPool.set_kernel "rope_f32" 7 = none :=
  (set_kernel_pool_invariant cacheNoPool "rope_f32" 7).1.mpr rfl

/-- C9: under single-threaded use, a kernel pushed back by set_kernel is
the next one get_kernel returns for that name, before any fresh
specialization from the program. -/
theorem set_get_roundtrip {K : Type} (c c2 : KernelCache K) (name : String)
    (k : K) (h : c.set_kernel name k = some c2) :
    (c2.get_kernel name).1 = some k := by
  unfold KernelCache.set_kernel at h
  cases hp : c.pools name with
  | none => rw [hp] at h; exact absurd h (by simp)
  | some pool =>
    rw [hp] at h
    obtain rfl : c.setPool name (k :: pool) = c2 := Option.some.inj h
    simp [KernelCache.get_kernel, KernelCache.setPool]

/-- A cache whose pool for the kernel name exists and is empty. -/
def cacheWithPool : KernelCache Nat :=
  ⟨fun _ => none, fun n => if n = "rope_f32" then some [] else none⟩

/-- The cache after returning kernel 7 to the pool. -/
def cacheAfterSet : KernelCache Nat :=
  cacheWithPool.setPool "rope_f32" [7]

theorem set_get_roundtrip_witness :
    cacheWithPool.set_kernel "rope_f32" 7 = some cacheAfterSet ∧
    (cacheAfterSet.get_kernel "rope_f32").1 = some 7 :=
  ⟨rfl, set_get_roundtrip cacheWithPool cacheAfterSet "rope_f32" 7 rfl⟩
